import Mathlib

/-!
# Verification of the self-resizing circular queue monitor (`simulapc.cpp`)

Shallow embedding of the repository's `CircularQueueMonitor` class and of its
consumer worker loop.  The C++ monitor guards all state with one mutex, so
every public operation is an atomic state transformation; we model each
operation as a pure function on an explicit monitor-state record.  Condition
variable notifications are recorded in counters so claims about "no thread is
notified" are expressible.  The log file is modelled as the list of lines
appended so far.  `size_t` values are modelled as `Nat` and item values
(`int`) as `Int`.
-/

namespace SimulaPC

/-- Monitor state: the fields of `CircularQueueMonitor` (`simulapc.cpp`
lines 16-27, 47), plus the log sink contents and counters of condition
variable notifications issued so far. -/
structure MState where
  buffer : List Int
  capacity : Nat
  front : Nat
  rear : Nat
  count : Nat
  producers_done : Bool
  log : List String
  notifyNotEmptyOne : Nat
  notifyNotFullOne : Nat
  notifyNotEmptyAll : Nat
  deriving Repr, DecidableEq

/-- The line written by `resize` (`simulapc.cpp` line 43):
`log_file << "La cola cambió de tamaño a " << capacity << endl;`. -/
def resizeMsg (n : Nat) : String :=
  "La cola cambió de tamaño a " ++ toString n

/-- `CircularQueueMonitor::resize` (`simulapc.cpp` lines 29-44): allocate a
zero-initialised buffer of the new capacity, copy the `count` live elements
starting at `front` circularly, reset `front` to 0, set
`rear = count % new_capacity`, update the capacity and append one log line. -/
def resize (new_capacity : Nat) (s : MState) : MState :=
  let new_buffer := (List.range new_capacity).map
    (fun i => if i < s.count then s.buffer.getD ((s.front + i) % s.capacity) 0 else 0)
  { s with
    buffer := new_buffer
    capacity := new_capacity
    front := 0
    rear := s.count % new_capacity
    log := s.log ++ [resizeMsg new_capacity] }

/-- The predicate `enqueue` waits on (`simulapc.cpp` line 58):
`not_full.wait(lock, [this]() { return count < capacity; });`. -/
def enqueueWaitCond (s : MState) : Prop :=
  s.count < s.capacity

/-- `CircularQueueMonitor::enqueue` (`simulapc.cpp` lines 54-71), the body
after the wait: write the item at `rear`, advance `rear` circularly,
increment `count`; if the queue just became full, double the capacity;
finally `not_empty.notify_one()`. -/
def enqueue (item : Int) (s : MState) : MState :=
  let s1 := { s with
    buffer := s.buffer.set s.rear item
    rear := (s.rear + 1) % s.capacity
    count := s.count + 1 }
  let s2 := if s1.count = s1.capacity then resize (s1.capacity * 2) s1 else s1
  { s2 with notifyNotEmptyOne := s2.notifyNotEmptyOne + 1 }

/-- The item read by `dequeue` (`simulapc.cpp` line 88): `item = buffer[front];`. -/
def dequeueItem (s : MState) : Int :=
  s.buffer.getD s.front 0

/-- The state after `dequeue` removes an element (`simulapc.cpp` lines
88-97): advance `front` circularly, decrement `count`; if usage dropped to a
quarter or less (and capacity is above 1), halve the capacity; finally
`not_full.notify_one()`. -/
def dequeueState (s : MState) : MState :=
  let s1 := { s with
    front := (s.front + 1) % s.capacity
    count := s.count - 1 }
  let s2 := if 1 < s1.capacity ∧ s1.count ≤ s1.capacity / 4
    then resize (s1.capacity / 2) s1 else s1
  { s2 with notifyNotFullOne := s2.notifyNotFullOne + 1 }

/-- `CircularQueueMonitor::dequeue` (`simulapc.cpp` lines 74-99).  The outer
`Option` is `none` when the call blocks forever in a sequential execution
(`count == 0` and `producers_done` false keeps the thread in the wait loop).
Otherwise the call completes: with `(none, s)` on the end-of-stream path
(`count == 0 && producers_done` returns `false` at line 84, touching
nothing), or with the removed item and the updated state. -/
def dequeue (s : MState) : Option (Option Int × MState) :=
  if s.count = 0 then
    if s.producers_done then some (none, s) else none
  else
    some (some (dequeueItem s), dequeueState s)

/-- `CircularQueueMonitor::set_producers_done` (`simulapc.cpp` lines
102-106): set the flag and `not_empty.notify_all()`. -/
def set_producers_done (s : MState) : MState :=
  { s with producers_done := true, notifyNotEmptyAll := s.notifyNotEmptyAll + 1 }

/-- The constructor (`simulapc.cpp` lines 50-51): `vector<int>` of the
initial capacity is zero-initialised, `front = rear = count = 0`,
`producers_done = false`, log empty. -/
def initState (c : Nat) : MState :=
  { buffer := List.replicate c 0
    capacity := c
    front := 0
    rear := 0
    count := 0
    producers_done := false
    log := []
    notifyNotEmptyOne := 0
    notifyNotFullOne := 0
    notifyNotEmptyAll := 0 }

/-- The logical queue content: `count` elements read from `front`,
advancing circularly with wraparound at `capacity`. -/
def toList (s : MState) : List Int :=
  (List.range s.count).map (fun i => s.buffer.getD ((s.front + i) % s.capacity) 0)

/-- The representation invariant as the specification states it:
`0 ≤ count ≤ capacity`, `capacity ≥ 1`, `front` and `rear` in
`[0, capacity)`, and `rear = (front + count) mod capacity`. -/
def RepInv (s : MState) : Prop :=
  s.count ≤ s.capacity ∧ 1 ≤ s.capacity ∧ s.front < s.capacity ∧
    s.rear < s.capacity ∧ s.rear = (s.front + s.count) % s.capacity

/-- Strengthened invariant actually maintained by the code in sequential
executions: additionally `count` is strictly below `capacity` (a full buffer
exists only transiently inside `enqueue`), and the backing vector has
exactly `capacity` slots. -/
def StrongInv (s : MState) : Prop :=
  s.count < s.capacity ∧ s.front < s.capacity ∧ s.rear < s.capacity ∧
    s.rear = (s.front + s.count) % s.capacity ∧ s.buffer.length = s.capacity

instance (s : MState) : Decidable (RepInv s) := by
  unfold RepInv; infer_instance

instance (s : MState) : Decidable (StrongInv s) := by
  unfold StrongInv; infer_instance

/-- States reachable, sequentially, from a freshly constructed monitor of
capacity `c` by completed `enqueue`, `dequeue` and `set_producers_done`
calls. -/
inductive Reachable (c : Nat) : MState → Prop
  | init : Reachable c (initState c)
  | enq (v : Int) {s : MState} : Reachable c s → Reachable c (enqueue v s)
  | deq {s : MState} {r : Option Int} {s' : MState} :
      Reachable c s → dequeue s = some (r, s') → Reachable c s'
  | done {s : MState} : Reachable c s → Reachable c (set_producers_done s)

/-! ## Basic helper lemmas -/

theorem getD_range_map (f : Nat → Int) (n i : Nat) (h : i < n) :
    ((List.range n).map f).getD i 0 = f i := by
  rw [List.getD_eq_getElem?_getD, List.getElem?_map, List.getElem?_range h]
  rfl

theorem getD_set_ne (l : List Int) (i j : Nat) (v : Int) (h : i ≠ j) :
    (l.set i v).getD j 0 = l.getD j 0 := by
  rw [List.getD_eq_getElem?_getD, List.getD_eq_getElem?_getD, List.getElem?_set_ne h]

theorem getD_set_self (l : List Int) (i : Nat) (v : Int) (h : i < l.length) :
    (l.set i v).getD i 0 = v := by
  rw [List.getD_eq_getElem?_getD, List.getElem?_set_eq_of_lt v h]
  rfl

theorem circ_index_inj {n f i j : Nat} (hi : i < n) (hj : j < n)
    (h : (f + i) % n = (f + j) % n) : i = j := by
  have h2 : Nat.ModEq n i j := Nat.ModEq.add_left_cancel' f h
  unfold Nat.ModEq at h2
  rwa [Nat.mod_eq_of_lt hi, Nat.mod_eq_of_lt hj] at h2

theorem toList_length (s : MState) : (toList s).length = s.count := by
  simp [toList]

theorem toList_eq_nil_iff (s : MState) : toList s = [] ↔ s.count = 0 := by
  rw [← List.length_eq_zero, toList_length]

/-! ## Behaviour of `resize` -/

theorem resize_log (n : Nat) (s : MState) :
    (resize n s).log = s.log ++ [resizeMsg n] := by
  simp [resize]

theorem resize_fields (n : Nat) (s : MState) :
    (resize n s).capacity = n ∧ (resize n s).front = 0 ∧
      (resize n s).rear = s.count % n ∧ (resize n s).count = s.count ∧
      (resize n s).producers_done = s.producers_done ∧
      (resize n s).buffer.length = n := by
  simp [resize]

theorem toList_resize (n : Nat) (s : MState) (h : s.count ≤ n) :
    toList (resize n s) = toList s := by
  unfold toList resize
  simp only
  apply List.map_congr_left
  intro i hi
  have hic : i < s.count := List.mem_range.mp hi
  have hin : i < n := lt_of_lt_of_le hic h
  rw [Nat.zero_add, Nat.mod_eq_of_lt hin, getD_range_map _ _ _ hin, if_pos hic]

theorem strongInv_resize (n : Nat) (s : MState) (h : s.count < n) :
    StrongInv (resize n s) := by
  have hn : 0 < n := by omega
  refine ⟨?_, ?_, ?_, ?_, ?_⟩ <;> simp [resize]
  · exact h
  · exact hn
  · exact Nat.mod_lt _ hn

/-! ## Behaviour of `enqueue` -/

theorem toList_notifyNE (t : MState) (k : Nat) :
    toList { t with notifyNotEmptyOne := k } = toList t := rfl

theorem toList_notifyNF (t : MState) (k : Nat) :
    toList { t with notifyNotFullOne := k } = toList t := rfl

theorem strongInv_notifyNE (t : MState) (k : Nat) :
    StrongInv { t with notifyNotEmptyOne := k } ↔ StrongInv t := Iff.rfl

theorem strongInv_notifyNF (t : MState) (k : Nat) :
    StrongInv { t with notifyNotFullOne := k } ↔ StrongInv t := Iff.rfl

theorem toList_push (v : Int) (s : MState) (h : StrongInv s) :
    toList { s with buffer := s.buffer.set s.rear v,
                    rear := (s.rear + 1) % s.capacity,
                    count := s.count + 1 } = toList s ++ [v] := by
  obtain ⟨hcc, hf, hr, hre, hb⟩ := h
  unfold toList
  simp only
  rw [List.range_succ, List.map_append, List.map_cons, List.map_nil]
  congr 1
  · apply List.map_congr_left
    intro i hi
    have hic : i < s.count := List.mem_range.mp hi
    apply getD_set_ne
    intro heq
    have heq2 : (s.front + s.count) % s.capacity = (s.front + i) % s.capacity := by
      rw [← hre, heq]
    have := circ_index_inj hcc (lt_trans hic hcc) heq2
    omega
  · have hidx : (s.front + s.count) % s.capacity = s.rear := hre.symm
    rw [hidx, getD_set_self _ _ _ (hb ▸ hr)]

theorem capacity_enqueue (v : Int) (s : MState) :
    (enqueue v s).capacity =
      if s.count + 1 = s.capacity then s.capacity * 2 else s.capacity := by
  unfold enqueue
  by_cases h : s.count + 1 = s.capacity <;> simp [h, resize]

theorem count_enqueue (v : Int) (s : MState) :
    (enqueue v s).count = s.count + 1 := by
  unfold enqueue
  by_cases h : s.count + 1 = s.capacity <;> simp [h, resize]

theorem done_enqueue (v : Int) (s : MState) :
    (enqueue v s).producers_done = s.producers_done := by
  unfold enqueue
  by_cases h : s.count + 1 = s.capacity <;> simp [h, resize]

theorem log_enqueue (v : Int) (s : MState) :
    (enqueue v s).log =
      if s.count + 1 = s.capacity then s.log ++ [resizeMsg (s.capacity * 2)]
      else s.log := by
  unfold enqueue
  by_cases h : s.count + 1 = s.capacity <;> simp [h, resize, resizeMsg]

theorem toList_enqueue (v : Int) (s : MState) (h : StrongInv s) :
    toList (enqueue v s) = toList s ++ [v] := by
  unfold enqueue
  simp only
  rw [toList_notifyNE]
  by_cases hfull : s.count + 1 = s.capacity
  · rw [if_pos hfull, toList_resize _ _ (by simp; omega), toList_push v s h]
  · rw [if_neg hfull, toList_push v s h]

theorem strongInv_enqueue (v : Int) (s : MState) (h : StrongInv s) :
    StrongInv (enqueue v s) := by
  obtain ⟨hcc, hf, hr, hre, hb⟩ := h
  have hcap : 0 < s.capacity := by omega
  unfold enqueue
  simp only
  rw [strongInv_notifyNE]
  by_cases hfull : s.count + 1 = s.capacity
  · rw [if_pos hfull]
    exact strongInv_resize _ _ (by simp; omega)
  · rw [if_neg hfull]
    refine ⟨by simp; omega, by simpa using hf, by simp [Nat.mod_lt _ hcap], ?_, by simpa using hb⟩
    simp only
    rw [hre, Nat.mod_add_mod, Nat.add_assoc]

/-! ## Behaviour of `dequeue` -/

theorem dequeue_eq_pos (s : MState) (hc : 0 < s.count) :
    dequeue s = some (some (dequeueItem s), dequeueState s) := by
  unfold dequeue
  rw [if_neg (by omega)]

theorem dequeue_eq_eos (s : MState) (hc : s.count = 0)
    (hd : s.producers_done = true) : dequeue s = some (none, s) := by
  unfold dequeue
  rw [if_pos hc, if_pos hd]

theorem dequeue_eq_blocked (s : MState) (hc : s.count = 0)
    (hd : s.producers_done = false) : dequeue s = none := by
  unfold dequeue
  rw [if_pos hc, hd, if_neg (by simp)]

theorem dequeueItem_eq_headI (s : MState) (h : StrongInv s) (hc : 0 < s.count) :
    dequeueItem s = (toList s).headI := by
  obtain ⟨hcc, hf, hr, hre, hb⟩ := h
  obtain ⟨m, hm⟩ : ∃ m, s.count = m + 1 := ⟨s.count - 1, by omega⟩
  unfold toList
  rw [hm, List.range_succ_eq_map, List.map_cons, List.headI_cons,
    Nat.add_zero, Nat.mod_eq_of_lt hf]
  rfl

theorem toList_drop_front (s : MState) (h : StrongInv s) (hc : 0 < s.count) :
    toList { s with front := (s.front + 1) % s.capacity, count := s.count - 1 }
      = (toList s).tail := by
  obtain ⟨hcc, hf, hr, hre, hb⟩ := h
  obtain ⟨m, hm⟩ : ∃ m, s.count = m + 1 := ⟨s.count - 1, by omega⟩
  unfold toList
  simp only
  rw [hm, List.range_succ_eq_map, List.map_cons, List.tail_cons, List.map_map,
    Nat.add_sub_cancel]
  apply List.map_congr_left
  intro i _
  simp only [Function.comp]
  rw [Nat.mod_add_mod]
  have harg : s.front + 1 + i = s.front + Nat.succ i := by omega
  rw [harg]

theorem dequeueState_eq (s : MState) :
    dequeueState s =
      (let s1 := { s with front := (s.front + 1) % s.capacity, count := s.count - 1 }
       let s2 := if 1 < s1.capacity ∧ s1.count ≤ s1.capacity / 4
         then resize (s1.capacity / 2) s1 else s1
       { s2 with notifyNotFullOne := s2.notifyNotFullOne + 1 }) := rfl

theorem capacity_dequeueState (s : MState) :
    (dequeueState s).capacity =
      if 1 < s.capacity ∧ s.count - 1 ≤ s.capacity / 4
      then s.capacity / 2 else s.capacity := by
  unfold dequeueState
  by_cases h : 1 < s.capacity ∧ s.count - 1 ≤ s.capacity / 4
  · have h2 : 1 < s.capacity ∧ s.count ≤ s.capacity / 4 + 1 := by omega
    simp [h, h2, resize]
  · have h2 : ¬(1 < s.capacity ∧ s.count ≤ s.capacity / 4 + 1) := by omega
    simp [h, h2, resize]

theorem count_dequeueState (s : MState) :
    (dequeueState s).count = s.count - 1 := by
  unfold dequeueState
  by_cases h : 1 < s.capacity ∧ s.count ≤ s.capacity / 4 + 1 <;> simp [h, resize]

theorem done_dequeueState (s : MState) :
    (dequeueState s).producers_done = s.producers_done := by
  unfold dequeueState
  by_cases h : 1 < s.capacity ∧ s.count ≤ s.capacity / 4 + 1 <;> simp [h, resize]

theorem log_dequeueState (s : MState) :
    (dequeueState s).log =
      if 1 < s.capacity ∧ s.count - 1 ≤ s.capacity / 4
      then s.log ++ [resizeMsg (s.capacity / 2)] else s.log := by
  unfold dequeueState
  by_cases h : 1 < s.capacity ∧ s.count - 1 ≤ s.capacity / 4
  · have h2 : 1 < s.capacity ∧ s.count ≤ s.capacity / 4 + 1 := by omega
    simp [h, h2, resize]
  · have h2 : ¬(1 < s.capacity ∧ s.count ≤ s.capacity / 4 + 1) := by omega
    simp [h, h2, resize]

theorem toList_dequeueState (s : MState) (h : StrongInv s) (hc : 0 < s.count) :
    toList (dequeueState s) = (toList s).tail := by
  unfold dequeueState
  simp only
  rw [toList_notifyNF]
  by_cases hcond : 1 < s.capacity ∧ s.count - 1 ≤ s.capacity / 4
  · rw [if_pos (by simpa using hcond), toList_resize _ _ (by simp; omega),
      toList_drop_front s h hc]
  · rw [if_neg (by simpa using hcond), toList_drop_front s h hc]

theorem strongInv_dequeueState (s : MState) (h : StrongInv s) (hc : 0 < s.count) :
    StrongInv (dequeueState s) := by
  obtain ⟨hcc, hf, hr, hre, hb⟩ := h
  have hcap : 0 < s.capacity := by omega
  unfold dequeueState
  simp only
  rw [strongInv_notifyNF]
  by_cases hcond : 1 < s.capacity ∧ s.count - 1 ≤ s.capacity / 4
  · rw [if_pos (by simpa using hcond)]
    exact strongInv_resize _ _ (by simp; omega)
  · rw [if_neg (by simpa using hcond)]
    refine ⟨by simp; omega, by simp [Nat.mod_lt _ hcap], by simpa using hr, ?_,
      by simpa using hb⟩
    simp only
    rw [hre, Nat.mod_add_mod]
    have harg : s.front + 1 + (s.count - 1) = s.front + s.count := by omega
    rw [harg]

/-- Draining loop: call `dequeue` up to `n` times, collecting the returned
items, stopping at a blocked call or at end-of-stream. -/
def drain : Nat → MState → List Int
  | 0, _ => []
  | n + 1, s =>
    match dequeue s with
    | some (some v, s') => v :: drain n s'
    | _ => []

theorem drain_toList (n : Nat) (s : MState) (h : StrongInv s)
    (hn : s.count = n) : drain n s = toList s := by
  induction n generalizing s with
  | zero =>
    rw [show drain 0 s = [] from rfl]
    exact ((toList_eq_nil_iff s).mpr hn).symm
  | succ m ih =>
    have hc : 0 < s.count := by omega
    unfold drain
    rw [dequeue_eq_pos s hc]
    show dequeueItem s :: drain m (dequeueState s) = toList s
    have h1 : StrongInv (dequeueState s) := strongInv_dequeueState s h hc
    have h2 : (dequeueState s).count = m := by rw [count_dequeueState]; omega
    rw [ih (dequeueState s) h1 h2, toList_dequeueState s h hc,
      dequeueItem_eq_headI s h hc]
    cases hl : toList s with
    | nil => rw [toList_eq_nil_iff] at hl; omega
    | cons a t => simp

/-! ## `set_producers_done`, construction, and reachability -/

theorem toList_set_done (s : MState) : toList (set_producers_done s) = toList s := rfl

theorem strongInv_set_done (s : MState) :
    StrongInv (set_producers_done s) ↔ StrongInv s := Iff.rfl

theorem strongInv_init (c : Nat) (hc : 1 ≤ c) : StrongInv (initState c) := by
  refine ⟨?_, ?_, ?_, ?_, ?_⟩ <;> simp [initState] <;> omega

theorem strongInv_dequeue_result (s : MState) (r : Option Int) (s' : MState)
    (h : StrongInv s) (he : dequeue s = some (r, s')) : StrongInv s' := by
  by_cases hc : s.count = 0
  · cases hd : s.producers_done
    · rw [dequeue_eq_blocked s hc hd] at he
      exact absurd he (by simp)
    · rw [dequeue_eq_eos s hc hd] at he
      simp at he
      rwa [← he.2]
  · have hpos : 0 < s.count := by omega
    rw [dequeue_eq_pos s hpos] at he
    simp at he
    rw [← he.2]
    exact strongInv_dequeueState s h hpos

theorem strongInv_reachable {c : Nat} {s : MState} (hc : 1 ≤ c)
    (h : Reachable c s) : StrongInv s := by
  induction h with
  | init => exact strongInv_init c hc
  | enq v _ ih => exact strongInv_enqueue v _ ih
  | deq _ he ih => exact strongInv_dequeue_result _ _ _ ih he
  | done _ ih => exact (strongInv_set_done _).mpr ih

theorem strongInv_repInv (s : MState) (h : StrongInv s) : RepInv s := by
  obtain ⟨hcc, hf, hr, hre, _⟩ := h
  exact ⟨by omega, by omega, hf, hr, hre⟩

/-! ## Claim theorems: invariants -/

/-- C1: Representation invariant of the monitor state.  Starting from
construction with a positive initial capacity, every state reached by
completed `enqueue`, `dequeue` (and the internal `resize` they perform) and
`set_producers_done` calls satisfies `0 ≤ count ≤ capacity`, `capacity ≥ 1`,
`front` and `rear` in `[0, capacity)`, and
`rear = (front + count) mod capacity`. -/
theorem monitor_repInv_reachable (c : Nat) (s : MState) (hc : 1 ≤ c)
    (h : Reachable c s) : RepInv s :=
  strongInv_repInv s (strongInv_reachable hc h)

/-- Witness for C1 at capacity 4 after one enqueue. -/
theorem monitor_repInv_reachable_witness :
    1 ≤ 4 ∧ RepInv (enqueue 7 (initState 4)) :=
  ⟨by decide,
    monitor_repInv_reachable 4 _ (by decide) (Reachable.enq 7 Reachable.init)⟩

/-- C9 (implicit): after every completed operation starting from an empty
monitor with positive capacity, `count < capacity` holds strictly, so
`enqueue`'s wait condition (`count < capacity`, line 58) is already true on
entry and a sequential `enqueue` never suspends. -/
theorem enqueue_never_suspends (c : Nat) (s : MState) (hc : 1 ≤ c)
    (h : Reachable c s) : s.count < s.capacity ∧ enqueueWaitCond s := by
  have hs := strongInv_reachable hc h
  exact ⟨hs.1, hs.1⟩

/-- Witness for C9: a freshly filled-then-resized monitor of capacity 1. -/
theorem enqueue_never_suspends_witness :
    1 ≤ 1 ∧ ((enqueue 5 (initState 1)).count < (enqueue 5 (initState 1)).capacity
      ∧ enqueueWaitCond (enqueue 5 (initState 1))) :=
  ⟨by decide,
    enqueue_never_suspends 1 _ (by decide) (Reachable.enq 5 Reachable.init)⟩

/-! ## Claim theorems: end-of-stream path -/

/-- C5: whenever `count = 0` and `producers_done = true`, `dequeue`
completes without blocking (the call returns, i.e. the result is `some`)
with the "no item" answer and removes nothing (the state is returned
untouched). -/
theorem dequeue_eos_returns_no_item (s : MState) (hc : s.count = 0)
    (hd : s.producers_done = true) : dequeue s = some (none, s) :=
  dequeue_eq_eos s hc hd

/-- Witness for C5 on a drained monitor with the flag set. -/
theorem dequeue_eos_returns_no_item_witness :
    (set_producers_done (initState 3)).count = 0 ∧
      (set_producers_done (initState 3)).producers_done = true ∧
      dequeue (set_producers_done (initState 3))
        = some (none, set_producers_done (initState 3)) :=
  ⟨by decide, by decide,
    dequeue_eos_returns_no_item _ (by decide) (by decide)⟩

/-- C10 (implicit): on the end-of-stream path (`count = 0`,
`producers_done = true`) `dequeue` leaves every component of the monitor
state unchanged — buffer contents, `front`, `rear`, `count`, `capacity`,
`producers_done` — appends no log line, performs no resize, and issues no
condition-variable notification. -/
theorem dequeue_eos_state_unchanged (s : MState) (hc : s.count = 0)
    (hd : s.producers_done = true) :
    ∃ s', dequeue s = some (none, s') ∧ s'.buffer = s.buffer ∧
      s'.front = s.front ∧ s'.rear = s.rear ∧ s'.count = s.count ∧
      s'.capacity = s.capacity ∧ s'.producers_done = s.producers_done ∧
      s'.log = s.log ∧ s'.notifyNotEmptyOne = s.notifyNotEmptyOne ∧
      s'.notifyNotFullOne = s.notifyNotFullOne ∧
      s'.notifyNotEmptyAll = s.notifyNotEmptyAll :=
  ⟨s, dequeue_eq_eos s hc hd, rfl, rfl, rfl, rfl, rfl, rfl, rfl, rfl, rfl, rfl⟩

/-- Witness for C10 on the same drained monitor. -/
theorem dequeue_eos_state_unchanged_witness :
    (set_producers_done (initState 3)).count = 0 ∧
      (set_producers_done (initState 3)).producers_done = true ∧
      (∃ s', dequeue (set_producers_done (initState 3)) = some (none, s') ∧
        s'.buffer = (set_producers_done (initState 3)).buffer ∧
        s'.front = (set_producers_done (initState 3)).front ∧
        s'.rear = (set_producers_done (initState 3)).rear ∧
        s'.count = (set_producers_done (initState 3)).count ∧
        s'.capacity = (set_producers_done (initState 3)).capacity ∧
        s'.producers_done = (set_producers_done (initState 3)).producers_done ∧
        s'.log = (set_producers_done (initState 3)).log ∧
        s'.notifyNotEmptyOne = (set_producers_done (initState 3)).notifyNotEmptyOne ∧
        s'.notifyNotFullOne = (set_producers_done (initState 3)).notifyNotFullOne ∧
        s'.notifyNotEmptyAll = (set_producers_done (initState 3)).notifyNotEmptyAll) :=
  ⟨by decide, by decide,
    dequeue_eos_state_unchanged _ (by decide) (by decide)⟩

/-! ## Claim theorems: capacity policy and log sink -/

/-- C8: policy asymmetry.  From any state satisfying the representation
invariant, a completed `enqueue` never decreases the capacity (it keeps it
or doubles it) and a completed `dequeue` never increases it (it keeps it or
halves it); neither operation brings the capacity below 1. -/
theorem policy_asymmetry (s : MState) (v : Int) (h : RepInv s) :
    (s.capacity ≤ (enqueue v s).capacity ∧
      ((enqueue v s).capacity = s.capacity ∨
        (enqueue v s).capacity = s.capacity * 2) ∧
      1 ≤ (enqueue v s).capacity) ∧
    (∀ r s', dequeue s = some (r, s') →
      s'.capacity ≤ s.capacity ∧
      (s'.capacity = s.capacity ∨ s'.capacity = s.capacity / 2) ∧
      1 ≤ s'.capacity) := by
  obtain ⟨hcc, hcap, hf, hr, hre⟩ := h
  constructor
  · rw [capacity_enqueue]
    by_cases hfull : s.count + 1 = s.capacity
    · rw [if_pos hfull]
      exact ⟨by omega, Or.inr rfl, by omega⟩
    · rw [if_neg hfull]
      exact ⟨le_refl _, Or.inl rfl, hcap⟩
  · intro r s' he
    by_cases hc0 : s.count = 0
    · cases hd : s.producers_done
      · rw [dequeue_eq_blocked s hc0 hd] at he
        exact absurd he (by simp)
      · rw [dequeue_eq_eos s hc0 hd] at he
        simp at he
        rw [← he.2]
        exact ⟨le_refl _, Or.inl rfl, hcap⟩
    · rw [dequeue_eq_pos s (by omega)] at he
      simp at he
      rw [← he.2, capacity_dequeueState]
      by_cases hcond : 1 < s.capacity ∧ s.count - 1 ≤ s.capacity / 4
      · rw [if_pos hcond]
        exact ⟨by omega, Or.inr rfl, by omega⟩
      · rw [if_neg hcond]
        exact ⟨le_refl _, Or.inl rfl, hcap⟩

/-- Witness for C8 on a fresh capacity-2 monitor. -/
theorem policy_asymmetry_witness :
    RepInv (initState 2) ∧
      ((initState 2).capacity ≤ (enqueue 9 (initState 2)).capacity ∧
        ((enqueue 9 (initState 2)).capacity = (initState 2).capacity ∨
          (enqueue 9 (initState 2)).capacity = (initState 2).capacity * 2) ∧
        1 ≤ (enqueue 9 (initState 2)).capacity) ∧
      (∀ r s', dequeue (initState 2) = some (r, s') →
        s'.capacity ≤ (initState 2).capacity ∧
        (s'.capacity = (initState 2).capacity ∨
          s'.capacity = (initState 2).capacity / 2) ∧
        1 ≤ s'.capacity) :=
  ⟨by decide, policy_asymmetry (initState 2) 9 (by decide)⟩

/-- C7 counterexample: the line the code appends on the first resize of a
capacity-1 monitor is the Spanish sentence of `simulapc.cpp` line 43, not
the English line `"Queue resized to 2"` that the claim requires. -/
theorem resize_log_line_not_english :
    (enqueue 5 (initState 1)).log = ["La cola cambió de tamaño a 2"] ∧
      "La cola cambió de tamaño a 2" ≠ "Queue resized to 2" := by
  constructor
  · decide
  · decide

/-- C7 amended: every resize appends exactly one line, of the exact form
`"La cola cambió de tamaño a <capacity>"` with `<capacity>` the new
capacity, at the end of the log — so the order of log lines matches the
chronological order of resize events; `enqueue` and `dequeue` touch the log
only through that one resize line. -/
theorem resize_appends_one_log_line (n : Nat) (s : MState) (v : Int) :
    (resize n s).log = s.log ++ [resizeMsg n] ∧
    ((enqueue v s).log = s.log ∨
      (enqueue v s).log = s.log ++ [resizeMsg (s.capacity * 2)]) ∧
    ((dequeueState s).log = s.log ∨
      (dequeueState s).log = s.log ++ [resizeMsg (s.capacity / 2)]) := by
  refine ⟨resize_log n s, ?_, ?_⟩
  · rw [log_enqueue]
    by_cases hfull : s.count + 1 = s.capacity
    · rw [if_pos hfull]; exact Or.inr rfl
    · rw [if_neg hfull]; exact Or.inl rfl
  · rw [log_dequeueState]
    by_cases hcond : 1 < s.capacity ∧ s.count - 1 ≤ s.capacity / 4
    · rw [if_pos hcond]; exact Or.inr rfl
    · rw [if_neg hcond]; exact Or.inl rfl

/-! ## Claim theorems: consumer worker -/

/-- What one round of the consumer loop decides to do next. -/
inductive ConsumerAction where
  | processItem
  | exitDone
  | exitIdleTimeout
  | repollAfterMs (ms : Nat)
  deriving Repr, DecidableEq

/-- One round of the `consumer_function` loop (`simulapc.cpp` lines
123-148): on a successful `dequeue` the item is processed and the idle
timer is reset; on an empty result the consumer exits if `producers_done`
is set, exits voluntarily if the elapsed whole seconds since its last
successful dequeue reach `max_wait_time`, and otherwise sleeps 10 ms and
re-polls.  The elapsed time and the configured limit are explicit inputs. -/
def consumerStep (dequeued : Option Int) (producersDone : Bool)
    (elapsedSec : Nat) (maxWaitSec : Nat) : ConsumerAction :=
  match dequeued with
  | some _ => ConsumerAction.processItem
  | none =>
    if producersDone then ConsumerAction.exitDone
    else if maxWaitSec ≤ elapsedSec then ConsumerAction.exitIdleTimeout
    else ConsumerAction.repollAfterMs 10

/-- C6: consumer idle-timeout exit.  When `dequeue` comes back empty while
`producers_done` is false, the consumer re-polls after the fixed 10 ms
interval while the idle time is below the configured maximum, and exits
voluntarily (even though producers may still be active) once the elapsed
time since its last successful dequeue reaches — in particular whenever it
exceeds — the configured maximum; a successful dequeue instead processes
the item and resets the idle timer. -/
theorem consumer_idle_timeout_exit (e m : Nat) :
    (consumerStep none false e m =
      if m ≤ e then ConsumerAction.exitIdleTimeout
      else ConsumerAction.repollAfterMs 10) ∧
    (∀ v d e2 m2, consumerStep (some v) d e2 m2 = ConsumerAction.processItem) :=
  ⟨by simp [consumerStep], fun v d e2 m2 => rfl⟩

/-! ## Claim theorems: growth and shrink triggers -/

/-- A producer-side run: enqueue the given items one after the other
(`producer_function` repeatedly calls `enqueue`). -/
def runEnqs (s : MState) (vs : List Int) : MState :=
  vs.foldl (fun t v => enqueue v t) s

theorem runEnqs_spec (C : Nat) (vs : List Int) (hC : 1 ≤ C)
    (hlen : vs.length = C) :
    ∀ k, k ≤ C →
      StrongInv (runEnqs (initState C) (vs.take k)) ∧
      toList (runEnqs (initState C) (vs.take k)) = vs.take k ∧
      (runEnqs (initState C) (vs.take k)).count = k ∧
      (runEnqs (initState C) (vs.take k)).capacity =
        (if k = C then C * 2 else C) := by
  intro k
  induction k with
  | zero =>
    intro _
    refine ⟨strongInv_init C hC, rfl, rfl, ?_⟩
    rw [if_neg (by omega)]
    rfl
  | succ m ih =>
    intro hk
    obtain ⟨hInv, hTo, hCnt, hCap⟩ := ih (by omega)
    have hCapm : (runEnqs (initState C) (vs.take m)).capacity = C := by
      rw [hCap, if_neg (by omega)]
    have hv : vs[m]? = some vs[m] := List.getElem?_eq_getElem (by omega)
    have htake : vs.take (m + 1) = vs.take m ++ [vs[m]] := by
      rw [List.take_succ, hv]
      rfl
    have hrun : runEnqs (initState C) (vs.take (m + 1))
        = enqueue vs[m] (runEnqs (initState C) (vs.take m)) := by
      rw [htake]
      unfold runEnqs
      rw [List.foldl_append]
      rfl
    rw [hrun]
    refine ⟨strongInv_enqueue _ _ hInv, ?_, ?_, ?_⟩
    · rw [toList_enqueue _ _ hInv, hTo, htake]
    · rw [count_enqueue, hCnt]
    · rw [capacity_enqueue, hCnt, hCapm]

/-- C3: growth trigger.  For every positive capacity `C`, enqueueing `C`
items into a freshly constructed empty monitor of capacity `C` leaves the
capacity at `2C` immediately after the `C`-th insertion, never earlier (any
shorter run keeps capacity `C`), and a subsequent `dequeue` returns the
first-inserted item. -/
theorem growth_trigger (C : Nat) (vs : List Int) (hC : 1 ≤ C)
    (hlen : vs.length = C) :
    (runEnqs (initState C) vs).capacity = C * 2 ∧
    (∀ k, k < C → (runEnqs (initState C) (vs.take k)).capacity = C) ∧
    (∃ s', dequeue (runEnqs (initState C) vs) = some (some vs.headI, s')) := by
  have hfull := runEnqs_spec C vs hC hlen C (le_refl C)
  have htake : vs.take C = vs := by
    rw [← hlen]
    exact List.take_length vs
  rw [htake] at hfull
  obtain ⟨hInv, hTo, hCnt, hCap⟩ := hfull
  refine ⟨by rw [hCap, if_pos rfl], ?_, ?_⟩
  · intro k hk
    have h2 := (runEnqs_spec C vs hC hlen k (by omega)).2.2.2
    rw [h2, if_neg (by omega)]
  · have hc : 0 < (runEnqs (initState C) vs).count := by omega
    refine ⟨dequeueState (runEnqs (initState C) vs), ?_⟩
    rw [dequeue_eq_pos _ hc, dequeueItem_eq_headI _ hInv hc, hTo]

/-- Witness for C3: capacity 1, one enqueued item. -/
theorem growth_trigger_witness :
    1 ≤ 1 ∧ ([(42 : Int)].length = 1) ∧
      ((runEnqs (initState 1) [42]).capacity = 1 * 2 ∧
        (∀ k, k < 1 → (runEnqs (initState 1) ([(42 : Int)].take k)).capacity = 1) ∧
        (∃ s', dequeue (runEnqs (initState 1) [42])
          = some (some ([(42 : Int)].headI), s'))) :=
  ⟨by decide, by decide, growth_trigger 1 [42] (by decide) (by decide)⟩

/-- C4: shrink trigger.  From any valid monitor state with capacity above 1
where one `dequeue` brings the element count to at most a quarter of the
capacity, that `dequeue` completes, leaves the capacity halved, and the
remaining elements are subsequently drained in their original relative
order. -/
theorem shrink_trigger (s : MState) (h : StrongInv s) (hcap : 1 < s.capacity)
    (hc : 0 < s.count) (hsh : s.count - 1 ≤ s.capacity / 4) :
    ∃ v s', dequeue s = some (some v, s') ∧ s'.capacity = s.capacity / 2 ∧
      drain s'.count s' = (toList s).tail := by
  refine ⟨dequeueItem s, dequeueState s, dequeue_eq_pos s hc, ?_, ?_⟩
  · rw [capacity_dequeueState, if_pos ⟨hcap, hsh⟩]
  · rw [drain_toList _ _ (strongInv_dequeueState s h hc) rfl,
      toList_dequeueState s h hc]

/-- Witness for C4: one element in a capacity-4 monitor; the dequeue drops
the count to 1 ≤ 4/4 and halves the capacity to 2. -/
theorem shrink_trigger_witness :
    StrongInv (enqueue 7 (initState 4)) ∧
      1 < (enqueue 7 (initState 4)).capacity ∧
      0 < (enqueue 7 (initState 4)).count ∧
      (enqueue 7 (initState 4)).count - 1 ≤ (enqueue 7 (initState 4)).capacity / 4 ∧
      (∃ v s', dequeue (enqueue 7 (initState 4)) = some (some v, s') ∧
        s'.capacity = (enqueue 7 (initState 4)).capacity / 2 ∧
        drain s'.count s' = (toList (enqueue 7 (initState 4))).tail) :=
  ⟨by decide, by decide, by decide, by decide,
    shrink_trigger _ (by decide) (by decide) (by decide) (by decide)⟩

/-! ## Claim theorems: FIFO refinement -/

/-- A monitor operation issued by some worker. -/
inductive Op where
  | enq (v : Int)
  | deq
  | markDone
  deriving Repr, DecidableEq

/-- Run a sequence of operations on the monitor, collecting in order the
items the `deq` operations return.  A `deq` that returns the end-of-stream
signal contributes no item; a `deq` that blocks (empty queue, producers
still active, no other thread to wake it) ends the sequential run. -/
def runOps : MState → List Op → MState × List Int
  | s, [] => (s, [])
  | s, Op.enq v :: rest => runOps (enqueue v s) rest
  | s, Op.deq :: rest =>
    match dequeue s with
    | some (some v, s') =>
      let r := runOps s' rest
      (r.1, v :: r.2)
    | some (none, s') => runOps s' rest
    | none => (s, [])
  | s, Op.markDone :: rest => runOps (set_producers_done s) rest

/-- Modelled from the spec: the plain unbounded FIFO list queue (a list of
pending items plus the `producers_done` flag) that the claim compares the
monitor against.  Enqueue appends at the back. -/
def specFifoEnqueue (v : Int) (q : List Int × Bool) : List Int × Bool :=
  (q.1 ++ [v], q.2)

/-- Modelled from the spec: dequeue of the plain FIFO queue removes the
first pending item; on an empty queue it signals end-of-stream when the
flag is set and blocks otherwise. -/
def specFifoDequeue (q : List Int × Bool) :
    Option (Option Int × (List Int × Bool)) :=
  match q.1 with
  | [] => if q.2 then some (none, q) else none
  | v :: rest => some (some v, (rest, q.2))

/-- Run the same operation sequence on the plain FIFO list queue. -/
def specFifoRun : (List Int × Bool) → List Op → (List Int × Bool) × List Int
  | q, [] => (q, [])
  | q, Op.enq v :: rest => specFifoRun (specFifoEnqueue v q) rest
  | q, Op.deq :: rest =>
    match specFifoDequeue q with
    | some (some v, q') =>
      let r := specFifoRun q' rest
      (r.1, v :: r.2)
    | some (none, q') => specFifoRun q' rest
    | none => (q, [])
  | q, Op.markDone :: rest => specFifoRun (q.1, true) rest

/-- The items passed to `enqueue` by an operation sequence, in order. -/
def enqTrace : List Op → List Int
  | [] => []
  | Op.enq v :: rest => v :: enqTrace rest
  | _ :: rest => enqTrace rest

theorem runOps_sim (ops : List Op) : ∀ s : MState, StrongInv s →
    (runOps s ops).2 = (specFifoRun (toList s, s.producers_done) ops).2 := by
  induction ops with
  | nil => intro s _; rfl
  | cons op rest ih =>
    intro s hs
    cases op with
    | enq v =>
      show (runOps (enqueue v s) rest).2
        = (specFifoRun (specFifoEnqueue v (toList s, s.producers_done)) rest).2
      rw [ih _ (strongInv_enqueue v s hs), toList_enqueue v s hs, done_enqueue]
      rfl
    | deq =>
      by_cases hc : s.count = 0
      · have hnil : toList s = [] := (toList_eq_nil_iff s).mpr hc
        cases hd : s.producers_done
        · unfold runOps specFifoRun
          rw [dequeue_eq_blocked s hc hd]
          unfold specFifoDequeue
          rw [hnil]
          rfl
        · unfold runOps specFifoRun
          rw [dequeue_eq_eos s hc hd]
          unfold specFifoDequeue
          rw [hnil]
          have h3 := ih s hs
          rw [hnil, hd] at h3
          exact h3
      · have hpos : 0 < s.count := by omega
        obtain ⟨a, t, hl⟩ : ∃ a t, toList s = a :: t := by
          cases hl : toList s with
          | nil => rw [toList_eq_nil_iff] at hl; omega
          | cons a t => exact ⟨a, t, rfl⟩
        unfold runOps specFifoRun
        rw [dequeue_eq_pos s hpos]
        unfold specFifoDequeue
        rw [hl]
        show dequeueItem s :: (runOps (dequeueState s) rest).2
          = a :: (specFifoRun (t, s.producers_done) rest).2
        have hhead : dequeueItem s = a := by
          rw [dequeueItem_eq_headI s hs hpos, hl]
          rfl
        have htail : toList (dequeueState s) = t := by
          rw [toList_dequeueState s hs hpos, hl]
          rfl
        rw [hhead, ih _ (strongInv_dequeueState s hs hpos), htail,
          done_dequeueState]
    | markDone =>
      show (runOps (set_producers_done s) rest).2
        = (specFifoRun ((toList s, s.producers_done).1, true) rest).2
      rw [ih _ ((strongInv_set_done s).mpr hs)]
      rfl

theorem specFifoRun_outputs_consumed (ops : List Op) :
    ∀ q : List Int × Bool,
      ∃ t, (specFifoRun q ops).2 ++ t = q.1 ++ enqTrace ops := by
  induction ops with
  | nil => intro q; exact ⟨q.1, by simp [specFifoRun, enqTrace]⟩
  | cons op rest ih =>
    intro q
    cases op with
    | enq v =>
      obtain ⟨t, ht⟩ := ih (specFifoEnqueue v q)
      refine ⟨t, ?_⟩
      show (specFifoRun (specFifoEnqueue v q) rest).2 ++ t
        = q.1 ++ (v :: enqTrace rest)
      rw [ht]
      show (q.1 ++ [v]) ++ enqTrace rest = q.1 ++ (v :: enqTrace rest)
      rw [List.append_assoc]
      rfl
    | deq =>
      cases hq : q.1 with
      | nil =>
        cases hb : q.2
        · refine ⟨enqTrace rest, ?_⟩
          unfold specFifoRun specFifoDequeue
          rw [hq, hb]
          simp [enqTrace, hq]
        · obtain ⟨t, ht⟩ := ih q
          refine ⟨t, ?_⟩
          unfold specFifoRun specFifoDequeue
          rw [hq, hb]
          show (specFifoRun q rest).2 ++ t = [] ++ enqTrace rest
          rw [ht, hq]
      | cons a t1 =>
        obtain ⟨t, ht⟩ := ih (t1, q.2)
        refine ⟨t, ?_⟩
        unfold specFifoRun specFifoDequeue
        rw [hq]
        show (a :: (specFifoRun (t1, q.2) rest).2) ++ t
          = (a :: t1) ++ enqTrace rest
        rw [List.cons_append, ht]
        rfl
    | markDone =>
      obtain ⟨t, ht⟩ := ih (q.1, true)
      exact ⟨t, ht⟩

/-- C2: exactly-once FIFO delivery.  For every operation sequence run
sequentially from a freshly constructed monitor of positive capacity, the
items returned by `dequeue` coincide with the output of the plain unbounded
FIFO list queue run on the same sequence (the resizing circular buffer
refines the list queue), and those items form a prefix of the items passed
to `enqueue`: nothing lost, nothing duplicated, order preserved. -/
theorem fifo_refinement (c : Nat) (ops : List Op) (hc : 1 ≤ c) :
    (runOps (initState c) ops).2 = (specFifoRun ([], false) ops).2 ∧
    ∃ t, (runOps (initState c) ops).2 ++ t = enqTrace ops := by
  have h1 := runOps_sim ops (initState c) (strongInv_init c hc)
  have h2 : toList (initState c) = [] := rfl
  rw [h2] at h1
  refine ⟨h1, ?_⟩
  obtain ⟨t, ht⟩ := specFifoRun_outputs_consumed ops ([], false)
  rw [h1]
  exact ⟨t, by simpa using ht⟩

/-- Witness for C2: two producers' items drained through a small monitor. -/
theorem fifo_refinement_witness :
    1 ≤ 2 ∧
      ((runOps (initState 2) [Op.enq 3, Op.enq 4, Op.deq, Op.enq 5, Op.deq, Op.deq,
          Op.markDone, Op.deq]).2
        = (specFifoRun ([], false) [Op.enq 3, Op.enq 4, Op.deq, Op.enq 5, Op.deq, Op.deq,
          Op.markDone, Op.deq]).2 ∧
      ∃ t, (runOps (initState 2) [Op.enq 3, Op.enq 4, Op.deq, Op.enq 5, Op.deq, Op.deq,
          Op.markDone, Op.deq]).2 ++ t
        = enqTrace [Op.enq 3, Op.enq 4, Op.deq, Op.enq 5, Op.deq, Op.deq,
          Op.markDone, Op.deq]) :=
  ⟨by decide, fifo_refinement 2 _ (by decide)⟩

end SimulaPC
